import Mathlib

set_option maxRecDepth 100000
set_option maxHeartbeats 1000000

/-!
# Verification of the Brandubh MCTS engine (HnefataflOnlineGame)

Shallow embedding of the 7×7 Brandubh game core and of the AlphaZero-style
MCTS support code of the repository:

* `src/mcts.js` — `MCTS.checkGameOver`, `MCTS.applyCaptures`, `MCTS.isFriendly`,
  `MCTS.isHostileSquare`, `MCTS.getStateRepresentation`,
  `MCTS.sampleFromDistribution`, and the `MCTSNode` methods `expand`,
  `selectChild`, `getVisitDistribution`;
* the `MoveEncoder` file — `encodeMove`, `decodeMove`, `getLegalMoveMask`,
  `getAllLegalMoves`;
* `script.js` — the emoji-piece `isValidMove` / `squaresBetweenAreEmpty`
  helpers that the `MoveEncoder` calls on the MCTS page.

Pieces are the cell texts '⚫' (attacker), '⚪' (defender), '⬜' (king) and the
empty string; they are embedded as the inductive `Cell`.  A board is a total
map from 7×7 coordinates to cells.  JavaScript numbers are embedded as `Int`
(all quantities involved are integers); the float-valued vectors (policy
probabilities, masks, state planes) take values in `ℚ`, which is exact on the
values the code actually produces (0.0, 1.0, and exact ratios of sums).
-/

/-- A cell of the 7×7 board: empty, attacker '⚫', defender '⚪', or king '⬜'. -/
inductive Cell : Type where
  | empty : Cell
  | attacker : Cell
  | defender : Cell
  | king : Cell
deriving DecidableEq, Repr

/-- The side to move: the string values 'attacker' / 'defender' of the source. -/
inductive Player : Type where
  | attacker : Player
  | defender : Player
deriving DecidableEq, Repr

/-- A board: the 7×7 grid of cell contents (`boardElement.rows[r].cells[c]`). -/
def Board : Type := Fin 7 → Fin 7 → Cell

/-- `0 ≤ r < 7 && 0 ≤ c < 7`: the bounds test the source repeats before every
cell access (`nr < 0 || nr >= 7 || nc < 0 || nc >= 7` and friends). -/
def isOnBoard (r c : Int) : Bool :=
  decide (0 ≤ r) && decide (r < 7) && decide (0 ≤ c) && decide (c < 7)

/-- Read a cell addressed by `Int` coordinates.  The source only reads cells
after an explicit bounds check, so the out-of-bounds default is never hit on
the paths we verify. -/
def bget (b : Board) (r c : Int) : Cell :=
  if h : 0 ≤ r ∧ r < 7 ∧ 0 ≤ c ∧ c < 7 then
    b ⟨r.toNat, by omega⟩ ⟨c.toNat, by omega⟩
  else Cell.empty

/-- Write a cell addressed by `Int` coordinates (out-of-bounds writes are
no-ops; the source only writes after a bounds check). -/
def bset (b : Board) (r c : Int) (v : Cell) : Board :=
  fun i j => if (i : Int) = r ∧ (j : Int) = c then v else b i j

/-- `isRestrictedSquare` / `MCTS.isHostileSquare` / the inline `isCornerSquare`
of the source: the four corner squares. -/
def isCornerSquare (r c : Int) : Bool :=
  (decide (r = 0) || decide (r = 6)) && (decide (c = 0) || decide (c = 6))

/-- Row-major list of all 49 cell coordinates, as the nested
`for row of boardElement.rows / for cell of row.cells` scans visit them. -/
def allCellsF : List (Fin 7 × Fin 7) :=
  (List.finRange 7).flatMap fun r => (List.finRange 7).map fun c => (r, c)

/-! ## C1 — `MCTS.checkGameOver` (src/mcts.js lines 777–819) -/

/-- Result record `{isOver, winner, value}` of `checkGameOver`. -/
structure GameOverResult : Type where
  isOver : Bool
  winner : Option Player
  value : ℚ
deriving DecidableEq, Repr

/-- Some king stands on a corner square (the scan's early `return` fires). -/
def kingOnCornerB (b : Board) : Bool :=
  decide (∃ r c : Fin 7, b r c = Cell.king ∧ isCornerSquare (r : Int) (c : Int) = true)

/-- `kingPresent`: some cell holds the king. -/
def kingPresentB (b : Board) : Bool :=
  decide (∃ r c : Fin 7, b r c = Cell.king)

/-- `attackerCount`: number of cells holding '⚫'. -/
def attackerCount (b : Board) : ℕ :=
  (allCellsF.filter fun rc => decide (b rc.1 rc.2 = Cell.attacker)).length

/-- `MCTS.checkGameOver`.  The source scans the board row-major; the only
early return is the "king found on a corner" branch, so the scan is equivalent
to this conditional chain: if any king stands on a corner the scan returns
defender/−1 at that cell; otherwise the scan completes and tests
`!kingPresent`, then `attackerCount === 0`. -/
def checkGameOver (b : Board) : GameOverResult :=
  if kingOnCornerB b then ⟨true, some Player.defender, -1⟩
  else if !kingPresentB b then ⟨true, some Player.attacker, 1⟩
  else if attackerCount b = 0 then ⟨true, some Player.defender, -1⟩
  else ⟨false, none, 0⟩

/-- Concrete board: the king alone at (3,3); no attackers anywhere. -/
def kingOnlyBoard : Board :=
  fun r c => if r = (3 : Fin 7) ∧ c = (3 : Fin 7) then Cell.king else Cell.empty

/-! ## C2 — `MoveEncoder.encodeMove` / `MoveEncoder.decodeMove` -/

/-- A move `{fromRow, fromCol, toRow, toCol}`. -/
structure Move : Type where
  fromRow : Int
  fromCol : Int
  toRow : Int
  toCol : Int
deriving DecidableEq, Repr

/-- `MoveEncoder.encodeMove`: `fromSquare*24 + direction*6 + (distance-1)` with
`direction` read off the sign of `dr` (vertical) or `dc` (horizontal) and
`distance = |dr|` resp. `|dc|`. -/
def encodeMove (fromRow fromCol toRow toCol : Int) : Int :=
  let fromSquare := fromRow * 7 + fromCol
  let dr := toRow - fromRow
  let dc := toCol - fromCol
  let dirDist : Int × Int :=
    if dr ≠ 0 then (if dr < 0 then 0 else 1, |dr|)
    else (if dc < 0 then 2 else 3, |dc|)
  fromSquare * 24 + dirDist.1 * 6 + (dirDist.2 - 1)

/-- The `DIRECTIONS` table `{0:[-1,0], 1:[1,0], 2:[0,-1], 3:[0,1]}`.  Keys
other than 0–3 never occur (`direction = (i % 24) / 6 < 4`). -/
def directionOf (d : Int) : Int × Int :=
  if d = 0 then (-1, 0)
  else if d = 1 then (1, 0)
  else if d = 2 then (0, -1)
  else if d = 3 then (0, 1)
  else (0, 0)

/-- `MoveEncoder.decodeMove`.  `Math.floor(x / n)` for positive `n` is the
flooring division that `Int`'s `/` implements; the JavaScript `%` agrees with
`Int`'s `%` on the non-negative indices the decoder is used with
(`policyIndex ∈ [0, 1175]`). -/
def decodeMove (policyIndex : Int) : Move :=
  let fromSquare := policyIndex / 24
  let remainder := policyIndex % 24
  let direction := remainder / 6
  let distance := remainder % 6 + 1
  let fromRow := fromSquare / 7
  let fromCol := fromSquare % 7
  let d := directionOf direction
  { fromRow := fromRow, fromCol := fromCol,
    toRow := fromRow + d.1 * distance, toCol := fromCol + d.2 * distance }

/-- A strict orthogonal slide: endpoints share a row or a column and differ.
With both endpoints on the 7×7 board this forces distance 1..6. -/
def isStrictSlide (fromRow fromCol toRow toCol : Int) : Prop :=
  (fromRow = toRow ∧ fromCol ≠ toCol) ∨ (fromCol = toCol ∧ fromRow ≠ toRow)

instance (a b c d : Int) : Decidable (isStrictSlide a b c d) := by
  unfold isStrictSlide; infer_instance

/-- The decoded destination lands on the board. -/
def destOnBoard (m : Move) : Prop :=
  0 ≤ m.toRow ∧ m.toRow < 7 ∧ 0 ≤ m.toCol ∧ m.toCol < 7

instance (m : Move) : Decidable (destOnBoard m) := by
  unfold destOnBoard; infer_instance

/-! ## C3 — `MoveEncoder.getLegalMoveMask` / `MoveEncoder.getAllLegalMoves`

These call the emoji-piece `isValidMove` of `script.js` (the file loaded on
the MCTS page), which in turn calls `squaresBetweenAreEmpty`. -/

/-- The integers `lo, lo+1, …, hi-1` (empty when `hi ≤ lo`): the index set of
a JavaScript `for (x = lo; x < hi; x++)` loop. -/
def intRange (lo hi : Int) : List Int :=
  (List.range (hi - lo).toNat).map fun k => lo + (k : Int)

/-- `squaresBetweenAreEmpty` (script.js): every square strictly between source
and target on the shared row/column is empty.  The JS loops
`for (col = min+1; col < max; col++)` resp. the row analogue; a non-orthogonal
pair falls through both branches and returns `true`. -/
def squaresBetweenAreEmpty (b : Board) (sourceRow sourceCol targetRow targetCol : Int) :
    Bool :=
  if sourceRow = targetRow then
    (intRange (min sourceCol targetCol + 1) (max sourceCol targetCol)).all
      fun col => decide (bget b sourceRow col = Cell.empty)
  else if sourceCol = targetCol then
    (intRange (min sourceRow targetRow + 1) (max sourceRow targetRow)).all
      fun row => decide (bget b row sourceCol = Cell.empty)
  else true

/-- `isValidMove` (script.js, emoji pieces): target holds no piece, the move
is horizontal or vertical, the squares between are empty, and a corner target
requires the source piece to be the king. -/
def isValidMove (b : Board) (sourceRow sourceCol targetRow targetCol : Int) : Bool :=
  decide (bget b targetRow targetCol = Cell.empty) &&
  (decide (sourceRow = targetRow) || decide (sourceCol = targetCol)) &&
  squaresBetweenAreEmpty b sourceRow sourceCol targetRow targetCol &&
  (!isCornerSquare targetRow targetCol || decide (bget b sourceRow sourceCol = Cell.king))

/-- A legal-move record `{fromRow, fromCol, toRow, toCol, policyIndex}`. -/
structure MoveRec : Type where
  fromRow : Int
  fromCol : Int
  toRow : Int
  toCol : Int
  policyIndex : Int
deriving DecidableEq, Repr

/-- The piece-ownership test of the enumeration loops:
`player === 'attacker' && piece === '⚫' || player === 'defender' && (piece === '⚪' || piece === '⬜')`. -/
def pieceBelongsTo (player : Player) (piece : Cell) : Bool :=
  match player with
  | Player.attacker => decide (piece = Cell.attacker)
  | Player.defender => decide (piece = Cell.defender) || decide (piece = Cell.king)

/-- The `DIRECTIONS` table as the `for (dir = 0; dir < 4; dir++)` loop visits
it: up, down, left, right. -/
def directionTable : List (Int × Int) := [(-1, 0), (1, 0), (0, -1), (0, 1)]

/-- The `for (distance = 1; distance <= 6; distance++)` loop of
`getAllLegalMoves`, one direction at a time: record an on-board valid target
and continue; `break` when off-board or blocked by a piece; skip silently when
invalid but empty (a corner refused to a non-king).  `fuel` counts the
remaining distances (6 at the first call), `dist` is the current distance. -/
def rayMoves (b : Board) (fromRow fromCol dr dc : Int) : ℕ → ℕ → List MoveRec
  | 0, _ => []
  | fuel + 1, dist =>
    let toRow := fromRow + dr * (dist : Int)
    let toCol := fromCol + dc * (dist : Int)
    if isOnBoard toRow toCol then
      if isValidMove b fromRow fromCol toRow toCol then
        ⟨fromRow, fromCol, toRow, toCol, encodeMove fromRow fromCol toRow toCol⟩ ::
          rayMoves b fromRow fromCol dr dc fuel (dist + 1)
      else if bget b toRow toCol ≠ Cell.empty then []
      else rayMoves b fromRow fromCol dr dc fuel (dist + 1)
    else []

/-- `MoveEncoder.getAllLegalMoves`: scan the cells row-major, and for each
piece of `player` try all four directions at distances 1–6. -/
def getAllLegalMoves (b : Board) (player : Player) : List MoveRec :=
  allCellsF.flatMap fun rc =>
    if pieceBelongsTo player (b rc.1 rc.2) then
      directionTable.flatMap fun d =>
        rayMoves b ((rc.1 : ℕ) : Int) ((rc.2 : ℕ) : Int) d.1 d.2 6 1
    else []

/-- The distance loop of `getLegalMoveMask`, recording the policy indices it
assigns `1.0`, in order.  Identical control flow to `rayMoves`. -/
def rayWrites (b : Board) (fromRow fromCol dr dc : Int) : ℕ → ℕ → List Int
  | 0, _ => []
  | fuel + 1, dist =>
    let toRow := fromRow + dr * (dist : Int)
    let toCol := fromCol + dc * (dist : Int)
    if isOnBoard toRow toCol then
      if isValidMove b fromRow fromCol toRow toCol then
        encodeMove fromRow fromCol toRow toCol ::
          rayWrites b fromRow fromCol dr dc fuel (dist + 1)
      else if bget b toRow toCol ≠ Cell.empty then []
      else rayWrites b fromRow fromCol dr dc fuel (dist + 1)
    else []

/-- The sequence of indices `getLegalMoveMask` sets to `1.0`: it first
collects the player's pieces row-major, then runs the direction/distance
loops for each. -/
def maskWrites (b : Board) (player : Player) : List Int :=
  (allCellsF.filter fun rc => pieceBelongsTo player (b rc.1 rc.2)).flatMap fun rc =>
    directionTable.flatMap fun d =>
      rayWrites b ((rc.1 : ℕ) : Int) ((rc.2 : ℕ) : Int) d.1 d.2 6 1

/-- `MoveEncoder.getLegalMoveMask`: a `Float32Array(1176)` of zeros with
`mask[policyIndex] = 1.0` performed for each write, modelled as a function
from indices updated along `maskWrites`. -/
def getLegalMoveMask (b : Board) (player : Player) : Int → ℚ :=
  (maskWrites b player).foldl (fun mask i => Function.update mask i 1) fun _ => 0

/-! ## C4 — `MCTS.applyCaptures` / `MCTS.isFriendly` (src/mcts.js) -/

/-- `MCTS.isHostileSquare`: same body as `isCornerSquare`
(`(r === 0 || r === 6) && (c === 0 || c === 6)`). -/
def isHostileSquare (r c : Int) : Bool := isCornerSquare r c

/-- `MCTS.isFriendly`: the empty string is friendly to nothing; '⚫' only to
'⚫'; otherwise both pieces must be in {'⚪', '⬜'}. -/
def isFriendly (piece1 piece2 : Cell) : Bool :=
  if piece1 = Cell.empty ∨ piece2 = Cell.empty then false
  else if piece1 = Cell.attacker then decide (piece2 = Cell.attacker)
  else (decide (piece1 = Cell.defender) || decide (piece1 = Cell.king)) &&
       (decide (piece2 = Cell.defender) || decide (piece2 = Cell.king))

/-- One iteration of the capture loop of `MCTS.applyCaptures`, for direction
`d`: `continue` when the neighbor is off-board, empty, or friendly, or when
the square beyond is off-board; clear the neighbor when the square beyond
holds a friend or is hostile (a corner). -/
def captureStep (b : Board) (r c : Int) (piece : Cell) (d : Int × Int) : Board :=
  let nr := r + d.1
  let nc := c + d.2
  if isOnBoard nr nc then
    let enemy := bget b nr nc
    if enemy = Cell.empty ∨ isFriendly piece enemy = true then b
    else
      let nr2 := nr + d.1
      let nc2 := nc + d.2
      if isOnBoard nr2 nc2 then
        let opposite := bget b nr2 nc2
        if isFriendly piece opposite = true ∨ isHostileSquare nr2 nc2 = true then
          bset b nr nc Cell.empty
        else b
      else b
  else b

/-- `MCTS.applyCaptures`: fold the capture step over the four directions
`[[-1,0],[1,0],[0,-1],[0,1]]` (the same table as `directionTable`), in order,
threading the mutated board. -/
def applyCaptures (b : Board) (r c : Int) (piece : Cell) : Board :=
  directionTable.foldl (fun bb d => captureStep bb r c piece d) b

/-- The combined guard under which `captureStep` clears the neighbor in
direction `d` (all reads on the board it is given). -/
def capCondB (b : Board) (r c : Int) (piece : Cell) (d : Int × Int) : Bool :=
  isOnBoard (r + d.1) (c + d.2) &&
  !decide (bget b (r + d.1) (c + d.2) = Cell.empty) &&
  !isFriendly piece (bget b (r + d.1) (c + d.2)) &&
  isOnBoard (r + d.1 + d.1) (c + d.2 + d.2) &&
  (isFriendly piece (bget b (r + d.1 + d.1) (c + d.2 + d.2)) ||
   isHostileSquare (r + d.1 + d.1) (c + d.2 + d.2))

/-- Modelled from the claim's words: side-based friendship — the Attacker
alone on one side; the Defender and the King together on the other. -/
def sameSide (p q : Cell) : Prop :=
  (p = Cell.attacker ∧ q = Cell.attacker) ∨
  ((p = Cell.defender ∨ p = Cell.king) ∧ (q = Cell.defender ∨ q = Cell.king))

instance (p q : Cell) : Decidable (sameSide p q) := by
  unfold sameSide; infer_instance

/-- Modelled from the claim's words: the neighbor `(r+d)` holds an enemy of
`piece`, and the square `(r+2d)` directly beyond is in-bounds and either
holds a friend of `piece` or is one of the four corner squares. -/
def captureSpecCond (b : Board) (r c : Int) (piece : Cell) (d : Int × Int) : Prop :=
  bget b (r + d.1) (c + d.2) ≠ Cell.empty ∧
  ¬ sameSide piece (bget b (r + d.1) (c + d.2)) ∧
  isOnBoard (r + 2 * d.1) (c + 2 * d.2) = true ∧
  (sameSide piece (bget b (r + 2 * d.1) (c + 2 * d.2)) ∨
   isCornerSquare (r + 2 * d.1) (c + 2 * d.2) = true)

instance (b : Board) (r c : Int) (piece : Cell) (d : Int × Int) :
    Decidable (captureSpecCond b r c piece d) := by
  unfold captureSpecCond; infer_instance

/-- The separation property of two capture directions: their neighbor cells
differ, and neither beyond-cell coincides with the other's neighbor cell. -/
def dirSep (d1 d2 : Int × Int) : Prop :=
  (d1.1 ≠ d2.1 ∨ d1.2 ≠ d2.2) ∧
  (d1.1 + d1.1 ≠ d2.1 ∨ d1.2 + d1.2 ≠ d2.2) ∧
  (d2.1 + d2.1 ≠ d1.1 ∨ d2.2 + d2.2 ≠ d1.2)

instance (d1 d2 : Int × Int) : Decidable (dirSep d1 d2) := by
  unfold dirSep; infer_instance

/-- A concrete capture scene: attacker lands on (3,3), a defender on (3,4) is
backed by an attacker on (3,5). -/
def captureSceneBoard : Board :=
  fun r c =>
    if r = (3 : Fin 7) ∧ c = (3 : Fin 7) then Cell.attacker
    else if r = (3 : Fin 7) ∧ c = (4 : Fin 7) then Cell.defender
    else if r = (3 : Fin 7) ∧ c = (5 : Fin 7) then Cell.attacker
    else Cell.empty

/-! ## C5/C6/C7/C9 — `MCTSNode` (src/mcts.js) -/

/-- A children-map key: the coordinates that the source serializes as the
string `` `${fromRow},${fromCol},${toRow},${toCol}` `` (that serialization is
injective — the components are comma-separated integers — so the key is
modelled by the coordinate tuple itself). -/
structure MoveKey : Type where
  fromRow : Int
  fromCol : Int
  toRow : Int
  toCol : Int
deriving DecidableEq, Repr

/-- The children-map key of a move record. -/
def keyOfMove (m : MoveRec) : MoveKey := ⟨m.fromRow, m.fromCol, m.toRow, m.toCol⟩

/-- A captured game state `{board, player}`. -/
def GameState : Type := Board × Player

/-- `MCTSNode` fields, in constructor order: `gameState` (null until lazily
materialized), `player`, `parentAction`, `prior`, `children` (a JS `Map`,
i.e. an insertion-ordered association list), `visitCount`, `totalValue`,
`meanValue`, `isExpanded`, `isTerminal`, `terminalValue`.  The parent
back-pointer is omitted: none of the methods verified here read it. -/
inductive MCTSNode : Type where
  | mk :
    Option GameState → Player → Option MoveRec → ℚ →
    List (MoveKey × MCTSNode) →
    ℕ → ℚ → ℚ →
    Bool → Bool → Option ℚ → MCTSNode

/-- Field accessor. -/
def MCTSNode.gameState : MCTSNode → Option GameState
  | .mk gs _ _ _ _ _ _ _ _ _ _ => gs

/-- Field accessor. -/
def MCTSNode.player : MCTSNode → Player
  | .mk _ pl _ _ _ _ _ _ _ _ _ => pl

/-- Field accessor. -/
def MCTSNode.parentAction : MCTSNode → Option MoveRec
  | .mk _ _ pa _ _ _ _ _ _ _ _ => pa

/-- Field accessor. -/
def MCTSNode.prior : MCTSNode → ℚ
  | .mk _ _ _ pr _ _ _ _ _ _ _ => pr

/-- Field accessor. -/
def MCTSNode.children : MCTSNode → List (MoveKey × MCTSNode)
  | .mk _ _ _ _ ch _ _ _ _ _ _ => ch

/-- Field accessor. -/
def MCTSNode.visitCount : MCTSNode → ℕ
  | .mk _ _ _ _ _ vc _ _ _ _ _ => vc

/-- Field accessor. -/
def MCTSNode.totalValue : MCTSNode → ℚ
  | .mk _ _ _ _ _ _ tv _ _ _ _ => tv

/-- Field accessor. -/
def MCTSNode.meanValue : MCTSNode → ℚ
  | .mk _ _ _ _ _ _ _ mv _ _ _ => mv

/-- Field accessor. -/
def MCTSNode.isExpanded : MCTSNode → Bool
  | .mk _ _ _ _ _ _ _ _ ie _ _ => ie

/-- Field accessor. -/
def MCTSNode.isTerminal : MCTSNode → Bool
  | .mk _ _ _ _ _ _ _ _ _ it _ => it

/-- Field accessor. -/
def MCTSNode.terminalValue : MCTSNode → Option ℚ
  | .mk _ _ _ _ _ _ _ _ _ _ tval => tval

/-- JS `Map.set`: replace the value in place when the key already exists
(keeping its position), else append the new binding. -/
def mapSet (m : List (MoveKey × MCTSNode)) (k : MoveKey) (v : MCTSNode) :
    List (MoveKey × MCTSNode) :=
  if m.any fun kv => decide (kv.1 = k) then
    m.map fun kv => if kv.1 = k then (k, v) else kv
  else m ++ [(k, v)]

/-- `MCTSNode.expand`: return unchanged when already expanded; otherwise
extract the masked probability of each legal move, normalize by the sum
(uniform `1/length` fallback when the sum is not positive), and `Map.set`
one fresh child per legal move (lazy `gameState = null`, opponent to move,
the move as `parentAction`, the normalized prior); finally set
`isExpanded`. -/
def MCTSNode.expand : MCTSNode → List MoveRec → (Int → ℚ) → MCTSNode
  | n@(.mk gs pl pa pr ch vc tv mv ie it tval), legalMoves, policyProbs =>
    if ie then n
    else
      let probs0 := legalMoves.map fun m => policyProbs m.policyIndex
      let probSum := probs0.sum
      let probs :=
        if probSum > 0 then probs0.map fun p => p / probSum
        else probs0.map fun _ => 1 / (legalMoves.length : ℚ)
      let nextPlayer := if pl = Player.attacker then Player.defender else Player.attacker
      let newChildren := (legalMoves.zip probs).foldl
        (fun chAcc mp =>
          mapSet chAcc (keyOfMove mp.1)
            (MCTSNode.mk none nextPlayer (some mp.1) mp.2 [] 0 0 0 false false none))
        ch
      MCTSNode.mk gs pl pa pr newChildren vc tv mv true it tval

/-- The PUCT score computed inside `MCTSNode.selectChild`:
`qValue + uValue`, with First-Play-Urgency `-(parentMean - fpuReduction)` for
unvisited children.  `sqrtParentVisits` stands for the precomputed
`Math.sqrt(this.visitCount)`; the selection loop treats it as an opaque
number, and the theorems below hold for every value of it. -/
def childScore (cPuct fpuReduction parentMean sqrtParentVisits : ℚ)
    (child : MCTSNode) : ℚ :=
  (if child.visitCount > 0 then -child.meanValue else -(parentMean - fpuReduction)) +
  cPuct * child.prior * sqrtParentVisits / (1 + (child.visitCount : ℚ))

/-- The `for ([moveKey, child] of this.children)` loop of `selectChild`:
keep the first entry whose score strictly exceeds the best so far
(`bestScore` starts at `-Infinity`, modelled by the `none` accumulator, which
any finite score beats). -/
def selLoop (g : MoveKey × MCTSNode → ℚ) :
    Option (ℚ × (MoveKey × MCTSNode)) → List (MoveKey × MCTSNode) →
    Option (ℚ × (MoveKey × MCTSNode))
  | best, [] => best
  | best, kv :: rest =>
    let score := g kv
    match best with
    | none => selLoop g (some (score, kv)) rest
    | some bs =>
      if score > bs.1 then selLoop g (some (score, kv)) rest
      else selLoop g (some bs) rest

/-- `MCTSNode.selectChild`: run the PUCT argmax loop over the children map
and return the winning `{moveKey, child}` (`none` on a childless node, where
the JS would return `{null, null}`). -/
def MCTSNode.selectChild (n : MCTSNode) (cPuct fpuReduction sqrtParentVisits : ℚ) :
    Option (MoveKey × MCTSNode) :=
  (selLoop (fun kv => childScore cPuct fpuReduction n.meanValue sqrtParentVisits kv.2)
    none n.children).map fun bs => bs.2

/-- `MCTSNode.getVisitDistribution`: an empty map when there are no children;
at `temperature === 0` a one-hot at the first index of maximal visit count
(`Math.max` / `indexOf`); otherwise probabilities `visits[i]^(1/temperature)`
normalized by their sum.  The real-valued power `v ↦ v^(1/temperature)` is
passed as `tpow`, an opaque map the claims hold for uniformly; at
`temperature = 1` the code's map is exactly the identity, i.e.
`tpow = Nat.cast`. -/
def MCTSNode.getVisitDistribution (n : MCTSNode) (temperature : ℚ) (tpow : ℕ → ℚ) :
    List (MoveKey × ℚ) :=
  if n.children.length = 0 then []
  else
    let moves := n.children.map Prod.fst
    let visits := n.children.map fun kv => kv.2.visitCount
    let probs :=
      if temperature = 0 then
        let maxVisits := visits.foldr max 0
        let maxIndex := visits.indexOf maxVisits
        (List.range visits.length).map fun i => if i = maxIndex then (1 : ℚ) else 0
      else
        let powed := visits.map tpow
        let povSum := powed.sum
        powed.map fun p => p / povSum
    moves.zip probs

/-! ## C8 — `MCTS.getStateRepresentation` (src/mcts.js) -/

/-- Index `plane*49 + r*7 + c` of the 196-float tensor: the plane-major
layout `[attackersPlane=0, defendersPlane=49, kingPlane=98,
playerPlane=147]` plus the cell offset `idx = r*7 + c`. -/
def planeIdx (plane : Fin 4) (r c : Fin 7) : Fin 196 :=
  ⟨(plane : ℕ) * 49 + (r : ℕ) * 7 + (c : ℕ), by
    have h1 := plane.isLt
    have h2 := r.isLt
    have h3 := c.isLt
    omega⟩

/-- The loop body of `getStateRepresentation` for one cell `(r,c)`: set the
matching piece plane entry to 1.0 (none for an empty cell), and always set
the player-plane entry to `playerValue`. -/
def stateCellWrite (b : Board) (playerValue : ℚ) (st : Fin 196 → ℚ)
    (rc : Fin 7 × Fin 7) : Fin 196 → ℚ :=
  let st1 :=
    match b rc.1 rc.2 with
    | Cell.attacker => Function.update st (planeIdx 0 rc.1 rc.2) 1
    | Cell.defender => Function.update st (planeIdx 1 rc.1 rc.2) 1
    | Cell.king => Function.update st (planeIdx 2 rc.1 rc.2) 1
    | Cell.empty => st
  Function.update st1 (planeIdx 3 rc.1 rc.2) playerValue

/-- `MCTS.getStateRepresentation`: a `Float32Array(4*7*7)` of zeros, filled
by the row-major double loop; `playerValue` is 0.0 when `player` is the
attacker and 1.0 otherwise. -/
def getStateRepresentation (b : Board) (player : Player) : Fin 196 → ℚ :=
  let playerValue : ℚ := if player = Player.attacker then 0 else 1
  allCellsF.foldl (stateCellWrite b playerValue) fun _ => 0

/-! ## C10 — `MCTS.sampleFromDistribution` (src/mcts.js) -/

/-- The scan loop of `sampleFromDistribution`: accumulate `cumSum` over
`probs` and return the first item at which `rand < cumSum`.  When `probs` is
shorter than `items` the JS reads `undefined` and every later comparison is
false; the model reads 0, under which every later comparison is likewise
false (the loop has not fired, so `rand ≥ cumSum` already holds). -/
def sampleLoop {α : Type} (rand : ℚ) : List α → List ℚ → ℚ → Option α
  | [], _, _ => none
  | a :: rest, ps, cumSum =>
    let c := cumSum + ps.headD 0
    if rand < c then some a
    else sampleLoop rand rest ps.tail c

/-- `MCTS.sampleFromDistribution`: scan, then fall back to
`items[items.length - 1]` (`none` on an empty list, where the JS would
produce `undefined`). -/
def sampleFromDistribution {α : Type} (items : List α) (probs : List ℚ) (rand : ℚ) :
    Option α :=
  match sampleLoop rand items probs 0 with
  | some a => some a
  | none => items.getLast?

/-! ## Concrete example nodes (for counterexamples and witnesses) -/

/-- A fresh leaf child, exactly as `expand` creates them. -/
def leafChild (pl : Player) (m : MoveRec) (prior : ℚ) : MCTSNode :=
  MCTSNode.mk none pl (some m) prior [] 0 0 0 false false none

/-- Example move (3,3)→(3,4). -/
def exMoveA : MoveRec := ⟨3, 3, 3, 4, encodeMove 3 3 3 4⟩

/-- Example move (3,3)→(2,3). -/
def exMoveB : MoveRec := ⟨3, 3, 2, 3, encodeMove 3 3 2 3⟩

/-- An unexpanded node with no children. -/
def exFreshNode : MCTSNode :=
  MCTSNode.mk none Player.attacker none 0 [] 0 0 0 false false none

/-- An expanded node with two unvisited children of equal prior (their PUCT
scores tie). -/
def exNodeTwoChildren : MCTSNode :=
  MCTSNode.mk none Player.attacker none 0
    [(keyOfMove exMoveA, leafChild Player.defender exMoveA (1/2)),
     (keyOfMove exMoveB, leafChild Player.defender exMoveB (1/2))]
    0 0 0 true false none

/-- An expanded node whose single child has zero visits. -/
def exNodeOneChild : MCTSNode :=
  MCTSNode.mk none Player.attacker none 0
    [(keyOfMove exMoveA, leafChild Player.defender exMoveA 1)]
    1 0 0 true false none

/-- Modelled from the claim's words: the first element of the list attaining
the maximal score, starting from a current best `cur` (ties keep the earlier
element). -/
def firstArgmaxAux {α : Type} (g : α → ℚ) (cur : α) : List α → α
  | [] => cur
  | a :: rest => if g a > g cur then firstArgmaxAux g a rest else firstArgmaxAux g cur rest

/-! ## Theorems for C1 and C2 -/

/-- C1 counterexample: on the board holding only the king at (3,3) — king
present, not on a corner, zero attackers — `checkGameOver` reports the game
over with the **Defender** (not the Attacker) as winner. -/
theorem checkGameOver_noAttackers_defenderWins_cex :
    kingPresentB kingOnlyBoard = true ∧
    kingOnCornerB kingOnlyBoard = false ∧
    attackerCount kingOnlyBoard = 0 ∧
    (checkGameOver kingOnlyBoard).isOver = true ∧
    (checkGameOver kingOnlyBoard).winner = some Player.defender ∧
    (checkGameOver kingOnlyBoard).winner ≠ some Player.attacker := by
  refine ⟨by decide, by decide, by decide, ?_, ?_, ?_⟩ <;> decide

/-- C1 (amended): for every position with the king on the board, no king on a
corner, and zero attacker pieces, `checkGameOver` reports the game over with
the Defender as winner, value −1 (from the attacker's perspective). -/
theorem checkGameOver_noAttackers_defenderWins (b : Board)
    (hk : kingPresentB b = true) (hc : kingOnCornerB b = false)
    (ha : attackerCount b = 0) :
    checkGameOver b = ⟨true, some Player.defender, -1⟩ := by
  unfold checkGameOver
  rw [hc, hk, ha]
  simp

/-- Witness for `checkGameOver_noAttackers_defenderWins` at `kingOnlyBoard`. -/
theorem checkGameOver_noAttackers_defenderWins_witness :
    checkGameOver kingOnlyBoard = ⟨true, some Player.defender, -1⟩ :=
  checkGameOver_noAttackers_defenderWins kingOnlyBoard
    (by decide) (by decide) (by decide)

/-- Closed form of `decodeMove` on an index written as
`fromSquare * 24 + direction * 6 + (distance - 1)`. -/
theorem decodeMove_closed (s d k : Int) (hs0 : 0 ≤ s) (hd0 : 0 ≤ d) (hd4 : d < 4)
    (hk0 : 0 ≤ k) (hk6 : k < 6) :
    decodeMove (s * 24 + d * 6 + k) =
      { fromRow := s / 7, fromCol := s % 7,
        toRow := s / 7 + (directionOf d).1 * (k + 1),
        toCol := s % 7 + (directionOf d).2 * (k + 1) } := by
  have h1 : (s * 24 + d * 6 + k) / 24 = s := by omega
  have h2 : (s * 24 + d * 6 + k) % 24 = d * 6 + k := by omega
  have h3 : (d * 6 + k) / 6 = d := by omega
  have h4 : (d * 6 + k) % 6 = k := by omega
  simp only [decodeMove, h1, h2, h3, h4]

/-- Forward half of the codec round-trip, over `Int` coordinates. -/
theorem decode_encode_ofSlide (F Fc T Tc : Int)
    (hF0 : 0 ≤ F) (hF7 : F < 7) (hFc0 : 0 ≤ Fc) (hFc7 : Fc < 7)
    (hT0 : 0 ≤ T) (hT7 : T < 7) (hTc0 : 0 ≤ Tc) (hTc7 : Tc < 7)
    (hsl : isStrictSlide F Fc T Tc) :
    decodeMove (encodeMove F Fc T Tc) = ⟨F, Fc, T, Tc⟩ := by
  have hdir0 : directionOf 0 = (-1, 0) := by norm_num [directionOf]
  have hdir1 : directionOf 1 = (1, 0) := by norm_num [directionOf]
  have hdir2 : directionOf 2 = (0, -1) := by norm_num [directionOf]
  have hdir3 : directionOf 3 = (0, 1) := by norm_num [directionOf]
  rcases hsl with ⟨hrow, hcol⟩ | ⟨hcol, hrow⟩
  · -- horizontal slide: F = T, Fc ≠ Tc, so dr = 0
    rcases hcol.lt_or_lt with hlt | hlt
    · -- moving right: dc > 0, direction 3
      have he : encodeMove F Fc T Tc = (F * 7 + Fc) * 24 + 3 * 6 + (Tc - Fc - 1) := by
        simp only [encodeMove]
        rw [if_neg (by omega : ¬ (T - F ≠ 0)), if_neg (by omega : ¬ (Tc - Fc < 0))]
        dsimp only
        rw [abs_of_nonneg (by omega : (0:Int) ≤ Tc - Fc)]
        try ring
      rw [he, decodeMove_closed _ _ _ (by omega) (by omega) (by omega) (by omega) (by omega),
        hdir3]
      simp only [Move.mk.injEq]
      refine ⟨by omega, by omega, by omega, by omega⟩
    · -- moving left: dc < 0, direction 2
      have he : encodeMove F Fc T Tc = (F * 7 + Fc) * 24 + 2 * 6 + (Fc - Tc - 1) := by
        simp only [encodeMove]
        rw [if_neg (by omega : ¬ (T - F ≠ 0)), if_pos (by omega : Tc - Fc < 0)]
        dsimp only
        rw [abs_of_neg (by omega : Tc - Fc < 0)]
        try ring
      rw [he, decodeMove_closed _ _ _ (by omega) (by omega) (by omega) (by omega) (by omega),
        hdir2]
      simp only [Move.mk.injEq]
      refine ⟨by omega, by omega, by omega, by omega⟩
  · -- vertical slide: Fc = Tc, F ≠ T, so dr ≠ 0
    rcases hrow.lt_or_lt with hlt | hlt
    · -- moving down: dr > 0, direction 1
      have he : encodeMove F Fc T Tc = (F * 7 + Fc) * 24 + 1 * 6 + (T - F - 1) := by
        simp only [encodeMove]
        rw [if_pos (by omega : T - F ≠ 0), if_neg (by omega : ¬ (T - F < 0))]
        dsimp only
        rw [abs_of_nonneg (by omega : (0:Int) ≤ T - F)]
        try ring
      rw [he, decodeMove_closed _ _ _ (by omega) (by omega) (by omega) (by omega) (by omega),
        hdir1]
      simp only [Move.mk.injEq]
      refine ⟨by omega, by omega, by omega, by omega⟩
    · -- moving up: dr < 0, direction 0
      have he : encodeMove F Fc T Tc = (F * 7 + Fc) * 24 + 0 * 6 + (F - T - 1) := by
        simp only [encodeMove]
        rw [if_pos (by omega : T - F ≠ 0), if_pos (by omega : T - F < 0)]
        dsimp only
        rw [abs_of_neg (by omega : T - F < 0)]
        try ring
      rw [he, decodeMove_closed _ _ _ (by omega) (by omega) (by omega) (by omega) (by omega),
        hdir0]
      simp only [Move.mk.injEq]
      refine ⟨by omega, by omega, by omega, by omega⟩

/-- Backward half of the codec round-trip, over `Int` indices. -/
theorem encode_decode_ofIndex (I : Int) (hI0 : 0 ≤ I) (hI1 : I < 1176)
    (hb : destOnBoard (decodeMove I)) :
    encodeMove (decodeMove I).fromRow (decodeMove I).fromCol (decodeMove I).toRow
      (decodeMove I).toCol = I := by
  obtain ⟨s, d, k, hI, hs0, hs49, hd0, hd4, hk0, hk6⟩ :
      ∃ s d k : Int, I = s * 24 + d * 6 + k ∧
        0 ≤ s ∧ s < 49 ∧ 0 ≤ d ∧ d < 4 ∧ 0 ≤ k ∧ k < 6 :=
    ⟨I / 24, (I % 24) / 6, (I % 24) % 6,
      by omega, by omega, by omega, by omega, by omega, by omega, by omega⟩
  subst hI
  rw [decodeMove_closed s d k hs0 hd0 hd4 hk0 hk6] at hb ⊢
  simp only [destOnBoard] at hb
  interval_cases d
  · rw [show directionOf 0 = (-1, 0) from by norm_num [directionOf]] at hb ⊢
    dsimp only at hb ⊢
    simp only [encodeMove]
    split_ifs with h1 h2
    · dsimp only
      rw [abs_of_neg (by omega : s / 7 + -1 * (k + 1) - s / 7 < 0)]
      omega
    · exfalso; omega
    · exfalso; omega
    · exfalso; omega
  · rw [show directionOf 1 = (1, 0) from by norm_num [directionOf]] at hb ⊢
    dsimp only at hb ⊢
    simp only [encodeMove]
    split_ifs with h1 h2
    · exfalso; omega
    · dsimp only
      rw [abs_of_nonneg (by omega : (0:Int) ≤ s / 7 + 1 * (k + 1) - s / 7)]
      omega
    · exfalso; omega
    · exfalso; omega
  · rw [show directionOf 2 = (0, -1) from by norm_num [directionOf]] at hb ⊢
    dsimp only at hb ⊢
    simp only [encodeMove]
    split_ifs with h1 h2
    · exfalso; omega
    · exfalso; omega
    · dsimp only
      rw [abs_of_neg (by omega : s % 7 + -1 * (k + 1) - s % 7 < 0)]
      omega
    · exfalso; omega
  · rw [show directionOf 3 = (0, 1) from by norm_num [directionOf]] at hb ⊢
    dsimp only at hb ⊢
    simp only [encodeMove]
    split_ifs with h1 h2
    · exfalso; omega
    · exfalso; omega
    · exfalso; omega
    · dsimp only
      rw [abs_of_nonneg (by omega : (0:Int) ≤ s % 7 + 1 * (k + 1) - s % 7)]
      omega

/-- C2: the move codec is a bijection on its meaningful domain.  Forward: for
every strict orthogonal slide with both endpoints on the board,
`decodeMove (encodeMove m) = m`.  Backward: for every index `i ∈ [0, 1175]`
whose decoded destination is on the board, `encodeMove (decodeMove i) = i`. -/
theorem moveCodec_bijection :
    (∀ fr fc tr tc : Fin 7,
        isStrictSlide ((fr : ℕ) : Int) ((fc : ℕ) : Int) ((tr : ℕ) : Int) ((tc : ℕ) : Int) →
        decodeMove (encodeMove ((fr : ℕ) : Int) ((fc : ℕ) : Int)
            ((tr : ℕ) : Int) ((tc : ℕ) : Int)) =
          ⟨((fr : ℕ) : Int), ((fc : ℕ) : Int), ((tr : ℕ) : Int), ((tc : ℕ) : Int)⟩) ∧
    (∀ i : Fin 1176,
        destOnBoard (decodeMove ((i : ℕ) : Int)) →
        encodeMove (decodeMove ((i : ℕ) : Int)).fromRow (decodeMove ((i : ℕ) : Int)).fromCol
          (decodeMove ((i : ℕ) : Int)).toRow (decodeMove ((i : ℕ) : Int)).toCol =
          ((i : ℕ) : Int)) := by
  constructor
  · intro fr fc tr tc h
    exact decode_encode_ofSlide _ _ _ _
      (Int.natCast_nonneg _) (by exact_mod_cast fr.isLt)
      (Int.natCast_nonneg _) (by exact_mod_cast fc.isLt)
      (Int.natCast_nonneg _) (by exact_mod_cast tr.isLt)
      (Int.natCast_nonneg _) (by exact_mod_cast tc.isLt) h
  · intro i h
    exact encode_decode_ofIndex _ (Int.natCast_nonneg _) (by exact_mod_cast i.isLt) h

/-- Witness for `moveCodec_bijection`: the spec's worked example, move
(3,0)→(3,1), i.e. index 522, round-trips both ways. -/
theorem moveCodec_bijection_witness :
    decodeMove (encodeMove (((3 : Fin 7) : ℕ) : Int) (((0 : Fin 7) : ℕ) : Int)
        (((3 : Fin 7) : ℕ) : Int) (((1 : Fin 7) : ℕ) : Int)) =
      ⟨(((3 : Fin 7) : ℕ) : Int), (((0 : Fin 7) : ℕ) : Int),
       (((3 : Fin 7) : ℕ) : Int), (((1 : Fin 7) : ℕ) : Int)⟩ ∧
    encodeMove (decodeMove (((522 : Fin 1176) : ℕ) : Int)).fromRow
        (decodeMove (((522 : Fin 1176) : ℕ) : Int)).fromCol
        (decodeMove (((522 : Fin 1176) : ℕ) : Int)).toRow
        (decodeMove (((522 : Fin 1176) : ℕ) : Int)).toCol = (((522 : Fin 1176) : ℕ) : Int) :=
  ⟨moveCodec_bijection.1 3 0 3 1 (by decide),
   moveCodec_bijection.2 522 (by decide)⟩

/-! ## Theorems for C3 -/

/-- Filtering before a flatMap is flatMapping a guarded function. -/
theorem filter_flatMap_eq {α β : Type} (l : List α) (p : α → Bool) (f : α → List β) :
    (l.filter p).flatMap f = l.flatMap fun x => if p x then f x else [] := by
  induction l with
  | nil => rfl
  | cons a t ih =>
    by_cases h : p a = true <;>
      simp [List.filter_cons, h, ih]

/-- Value of a fold of `mask[i] = 1.0` writes. -/
theorem foldl_update_eq (l : List Int) (init : Int → ℚ) (i : Int) :
    (l.foldl (fun m j => Function.update m j 1) init) i = if i ∈ l then 1 else init i := by
  induction l generalizing init with
  | nil => simp
  | cons a t ih =>
    simp only [List.foldl_cons, ih, List.mem_cons]
    by_cases h : i ∈ t
    · simp [h]
    · by_cases ha : i = a <;> simp [h, ha, Function.update]

/-- The mask loop writes exactly the policy indices of the enumerated moves,
in order (the two loops share their control flow). -/
theorem rayWrites_eq_map (b : Board) (fromRow fromCol dr dc : Int) :
    ∀ fuel dist, rayWrites b fromRow fromCol dr dc fuel dist =
      (rayMoves b fromRow fromCol dr dc fuel dist).map MoveRec.policyIndex := by
  intro fuel
  induction fuel with
  | zero => intro dist; rfl
  | succ n ih =>
    intro dist
    simp only [rayWrites, rayMoves]
    split_ifs <;> simp [ih]

/-- Every enumerated move record carries `policyIndex = encodeMove(move)`. -/
theorem rayMoves_policyIndex (b : Board) (fromRow fromCol dr dc : Int) :
    ∀ fuel dist m, m ∈ rayMoves b fromRow fromCol dr dc fuel dist →
      m.policyIndex = encodeMove m.fromRow m.fromCol m.toRow m.toCol := by
  intro fuel
  induction fuel with
  | zero => intro dist m h; simp [rayMoves] at h
  | succ n ih =>
    intro dist m h
    simp only [rayMoves] at h
    split_ifs at h with h1 h2 h3
    · rcases List.mem_cons.mp h with hm | hm
      · subst hm; rfl
      · exact ih _ _ hm
    · simp at h
    · exact ih _ _ h
    · simp at h

/-- `maskWrites` is the policy-index trace of `getAllLegalMoves`. -/
theorem maskWrites_eq (b : Board) (player : Player) :
    maskWrites b player = (getAllLegalMoves b player).map MoveRec.policyIndex := by
  unfold maskWrites getAllLegalMoves
  rw [filter_flatMap_eq, List.map_flatMap]
  congr 1
  funext rc
  rw [apply_ite (List.map MoveRec.policyIndex)]
  by_cases hp : pieceBelongsTo player (b rc.1 rc.2) = true
  · rw [if_pos hp, if_pos hp, List.map_flatMap]
    congr 1
    funext d
    rw [rayWrites_eq_map]
  · rw [if_neg hp, if_neg hp]
    rfl

/-- Every move returned by `getAllLegalMoves` carries its own encoding as
`policyIndex`. -/
theorem getAllLegalMoves_policyIndex (b : Board) (player : Player) (m : MoveRec)
    (h : m ∈ getAllLegalMoves b player) :
    m.policyIndex = encodeMove m.fromRow m.fromCol m.toRow m.toCol := by
  unfold getAllLegalMoves at h
  rw [List.mem_flatMap] at h
  obtain ⟨rc, _, hm⟩ := h
  split_ifs at hm with hp
  · rw [List.mem_flatMap] at hm
    obtain ⟨d, _, hm⟩ := hm
    exact rayMoves_policyIndex b _ _ d.1 d.2 6 1 m hm
  · simp at hm

/-- C3: for every position and side, the 1176-entry legality mask holds `1.0`
exactly at the indices `encodeMove m` of the moves `m` that
`getAllLegalMoves` returns, and `0.0` at every other index. -/
theorem getLegalMoveMask_correct (b : Board) (player : Player) (i : Fin 1176) :
    getLegalMoveMask b player ((i : ℕ) : Int) =
      if ∃ m ∈ getAllLegalMoves b player,
           encodeMove m.fromRow m.fromCol m.toRow m.toCol = ((i : ℕ) : Int)
      then 1 else 0 := by
  unfold getLegalMoveMask
  rw [foldl_update_eq, maskWrites_eq]
  have hiff : ((i : ℕ) : Int) ∈ (getAllLegalMoves b player).map MoveRec.policyIndex ↔
      ∃ m ∈ getAllLegalMoves b player,
        encodeMove m.fromRow m.fromCol m.toRow m.toCol = ((i : ℕ) : Int) := by
    rw [List.mem_map]
    constructor
    · rintro ⟨m, hm, he⟩
      exact ⟨m, hm, by rw [← getAllLegalMoves_policyIndex b player m hm]; exact he⟩
    · rintro ⟨m, hm, he⟩
      exact ⟨m, hm, by rw [getAllLegalMoves_policyIndex b player m hm]; exact he⟩
  by_cases h : ∃ m ∈ getAllLegalMoves b player,
      encodeMove m.fromRow m.fromCol m.toRow m.toCol = ((i : ℕ) : Int)
  · rw [if_pos (hiff.mpr h), if_pos h]
  · rw [if_neg (fun hc => h (hiff.mp hc)), if_neg h]

/-! ## Theorems for C4 -/

/-- `captureStep` either clears the neighbor cell (exactly under `capCondB`)
or leaves the board unchanged. -/
theorem captureStep_eq (b : Board) (r c : Int) (piece : Cell) (d : Int × Int) :
    captureStep b r c piece d =
      if capCondB b r c piece d = true then
        bset b (r + d.1) (c + d.2) Cell.empty
      else b := by
  unfold captureStep capCondB
  split_ifs <;> simp_all

/-- Reading a written cell back (in bounds). -/
theorem bget_bset_same (b : Board) (x y : Int) (v : Cell)
    (hx0 : 0 ≤ x) (hx7 : x < 7) (hy0 : 0 ≤ y) (hy7 : y < 7) :
    bget (bset b x y v) x y = v := by
  unfold bget bset
  rw [dif_pos ⟨hx0, hx7, hy0, hy7⟩]
  rw [if_pos ⟨by simp [Int.toNat_of_nonneg hx0], by simp [Int.toNat_of_nonneg hy0]⟩]

/-- Reading any other cell after a write. -/
theorem bget_bset_ne (b : Board) (x y u w : Int) (v : Cell)
    (h : u ≠ x ∨ w ≠ y) :
    bget (bset b x y v) u w = bget b u w := by
  unfold bget bset
  split_ifs with h1 h2
  · exfalso
    have hu : ((u.toNat : ℕ) : Int) = u := Int.toNat_of_nonneg h1.1
    have hw : ((w.toNat : ℕ) : Int) = w := Int.toNat_of_nonneg h1.2.2.1
    rcases h with hh | hh
    · exact hh (by rw [← hu]; simpa using h2.1)
    · exact hh (by rw [← hw]; simpa using h2.2)
  · rfl
  · rfl

/-- `capCondB` only reads the neighbor and beyond cells, so a write anywhere
else leaves it unchanged. -/
theorem capCondB_bset (b : Board) (r c x y : Int) (v piece : Cell) (d : Int × Int)
    (h1 : r + d.1 ≠ x ∨ c + d.2 ≠ y)
    (h2 : r + d.1 + d.1 ≠ x ∨ c + d.2 + d.2 ≠ y) :
    capCondB (bset b x y v) r c piece d = capCondB b r c piece d := by
  unfold capCondB
  rw [bget_bset_ne b x y _ _ v h1, bget_bset_ne b x y _ _ v h2]

/-- Rebuilding a `Fin 7` from the `toNat` of its integer cast. -/
theorem fin_of_toNat_coe (i : Fin 7) (h : ((i : ℕ) : Int).toNat < 7) :
    (⟨((i : ℕ) : Int).toNat, h⟩ : Fin 7) = i := Fin.ext (by simp)

/-- `bget` at in-range coordinates is plain board application. -/
theorem bget_coe (b : Board) (i j : Fin 7) :
    bget b ((i : ℕ) : Int) ((j : ℕ) : Int) = b i j := by
  unfold bget
  rw [dif_pos ⟨Int.natCast_nonneg _, by exact_mod_cast i.isLt,
      Int.natCast_nonneg _, by exact_mod_cast j.isLt⟩]
  rw [fin_of_toNat_coe, fin_of_toNat_coe]

/-- Unpacking the bounds check. -/
theorem isOnBoard_bounds (r c : Int) (h : isOnBoard r c = true) :
    0 ≤ r ∧ r < 7 ∧ 0 ≤ c ∧ c < 7 := by
  unfold isOnBoard at h
  simp only [Bool.and_eq_true, decide_eq_true_eq] at h
  exact ⟨h.1.1.1, h.1.1.2, h.1.2, h.2⟩

/-- For a non-empty piece, the code's `isFriendly` is exactly the claim's
side-based friendship. -/
theorem isFriendly_iff_sameSide (p q : Cell) (hp : p ≠ Cell.empty) :
    isFriendly p q = true ↔ sameSide p q := by
  cases p <;> cases q <;> first | exact absurd rfl hp | decide

/-- The code's capture guard coincides with the claim's condition, plus the
neighbor's own bounds check. -/
theorem capCondB_iff (b : Board) (r c : Int) (piece : Cell) (d : Int × Int)
    (hp : piece ≠ Cell.empty) :
    capCondB b r c piece d = true ↔
      isOnBoard (r + d.1) (c + d.2) = true ∧ captureSpecCond b r c piece d := by
  have h2d1 : r + d.1 + d.1 = r + 2 * d.1 := by ring
  have h2d2 : c + d.2 + d.2 = c + 2 * d.2 := by ring
  unfold capCondB captureSpecCond isHostileSquare
  rw [h2d1, h2d2]
  simp only [Bool.and_eq_true, Bool.or_eq_true, Bool.not_eq_true',
    decide_eq_false_iff_not, Bool.not_eq_true]
  constructor
  · rintro ⟨⟨⟨⟨hA, hB⟩, hC⟩, hD⟩, hE⟩
    refine ⟨hA, hB, ?_, hD, ?_⟩
    · intro hs
      rw [(isFriendly_iff_sameSide piece _ hp).mpr hs] at hC
      exact absurd hC (by simp)
    · rcases hE with hE | hE
      · exact Or.inl ((isFriendly_iff_sameSide piece _ hp).mp hE)
      · exact Or.inr hE
  · rintro ⟨hA, ⟨hB, hC, hD, hE⟩⟩
    refine ⟨⟨⟨⟨hA, hB⟩, ?_⟩, hD⟩, ?_⟩
    · rw [← Bool.not_eq_true]
      intro hf
      exact hC ((isFriendly_iff_sameSide piece _ hp).mp hf)
    · rcases hE with hE | hE
      · exact Or.inl ((isFriendly_iff_sameSide piece _ hp).mpr hE)
      · exact Or.inr hE

/-- Characterization of the capture fold over pairwise-separated directions:
a cell ends empty exactly when it is the neighbor of some listed direction
whose guard holds on the original board; every other cell is unchanged.
(The four steps are independent because no step reads a cell another step
writes.) -/
theorem foldl_captureStep_char (r c : Int) (piece : Cell) :
    ∀ (ds : List (Int × Int)) (b : Board), ds.Pairwise dirSep →
      ∀ u w : Int,
        bget (ds.foldl (fun bb d => captureStep bb r c piece d) b) u w =
          if ∃ d ∈ ds, u = r + d.1 ∧ w = c + d.2 ∧ capCondB b r c piece d = true
          then Cell.empty else bget b u w := by
  intro ds
  induction ds with
  | nil => intro b _ u w; simp
  | cons d0 ds ih =>
    intro b hpw u w
    have hsep := (List.pairwise_cons.mp hpw).1
    have hpw' := (List.pairwise_cons.mp hpw).2
    rw [List.foldl_cons, ih (captureStep b r c piece d0) hpw' u w]
    have hcond : ∀ e ∈ ds, capCondB (captureStep b r c piece d0) r c piece e =
        capCondB b r c piece e := by
      intro e he
      rw [captureStep_eq]
      split_ifs with h0
      · refine capCondB_bset b r c _ _ Cell.empty piece e ?_ ?_
        · rcases (hsep e he).1 with s | s
          · exact Or.inl (by omega)
          · exact Or.inr (by omega)
        · rcases (hsep e he).2.2 with s | s
          · exact Or.inl (by omega)
          · exact Or.inr (by omega)
      · rfl
    have hiff : (∃ e ∈ ds, u = r + e.1 ∧ w = c + e.2 ∧
        capCondB (captureStep b r c piece d0) r c piece e = true) ↔
        ∃ e ∈ ds, u = r + e.1 ∧ w = c + e.2 ∧ capCondB b r c piece e = true := by
      constructor
      · rintro ⟨e, he, hu, hw, hcb⟩
        exact ⟨e, he, hu, hw, by rwa [hcond e he] at hcb⟩
      · rintro ⟨e, he, hu, hw, hcb⟩
        exact ⟨e, he, hu, hw, by rwa [hcond e he]⟩
    by_cases htail : ∃ e ∈ ds, u = r + e.1 ∧ w = c + e.2 ∧ capCondB b r c piece e = true
    · rw [if_pos (hiff.mpr htail), if_pos ?_]
      obtain ⟨e, he, h1, h2, h3⟩ := htail
      exact ⟨e, List.mem_cons_of_mem d0 he, h1, h2, h3⟩
    · rw [if_neg (fun hc => htail (hiff.mp hc)), captureStep_eq]
      by_cases h0 : capCondB b r c piece d0 = true
      · rw [if_pos h0]
        by_cases hu : u = r + d0.1 ∧ w = c + d0.2
        · obtain ⟨hb1, hb2, hb3, hb4⟩ := isOnBoard_bounds _ _ (by
            unfold capCondB at h0
            simp only [Bool.and_eq_true] at h0
            exact h0.1.1.1.1)
          rw [hu.1, hu.2, bget_bset_same b _ _ Cell.empty hb1 hb2 hb3 hb4]
          rw [if_pos ⟨d0, List.mem_cons_self d0 ds, rfl, rfl, h0⟩]
        · rw [bget_bset_ne b _ _ _ _ Cell.empty (by tauto)]
          rw [if_neg ?_]
          rintro ⟨e, he, h1, h2, h3⟩
          rcases List.mem_cons.mp he with rfl | he
          · exact hu ⟨h1, h2⟩
          · exact htail ⟨e, he, h1, h2, h3⟩
      · rw [if_neg h0, if_neg ?_]
        rintro ⟨e, he, h1, h2, h3⟩
        rcases List.mem_cons.mp he with rfl | he
        · exact h0 h3
        · exact htail ⟨e, he, h1, h2, h3⟩

/-- C4: after a move of `piece` to `(r,c)`, capture resolution removes
exactly those orthogonal neighbors holding an enemy of `piece` for which the
square directly beyond is in-bounds and holds a friend of `piece` or is a
corner; friendship is side-based (Attacker alone; Defender and King
together), so the King is captured by this same two-sided sandwich rule. -/
theorem applyCaptures_spec (b : Board) (r c : Int) (piece : Cell)
    (hp : piece ≠ Cell.empty) (r1 c1 : Fin 7) :
    applyCaptures b r c piece r1 c1 =
      if ∃ d ∈ directionTable, ((r1 : ℕ) : Int) = r + d.1 ∧ ((c1 : ℕ) : Int) = c + d.2 ∧
           captureSpecCond b r c piece d
      then Cell.empty else b r1 c1 := by
  have hpair : directionTable.Pairwise dirSep := by decide
  have hchar := foldl_captureStep_char r c piece directionTable b hpair
    ((r1 : ℕ) : Int) ((c1 : ℕ) : Int)
  rw [show applyCaptures b r c piece r1 c1 =
      bget (applyCaptures b r c piece) ((r1 : ℕ) : Int) ((c1 : ℕ) : Int) from
    (bget_coe _ r1 c1).symm]
  unfold applyCaptures
  rw [hchar]
  have hiff : (∃ d ∈ directionTable, ((r1 : ℕ) : Int) = r + d.1 ∧
        ((c1 : ℕ) : Int) = c + d.2 ∧ capCondB b r c piece d = true) ↔
      ∃ d ∈ directionTable, ((r1 : ℕ) : Int) = r + d.1 ∧
        ((c1 : ℕ) : Int) = c + d.2 ∧ captureSpecCond b r c piece d := by
    constructor
    · rintro ⟨d, hd, h1, h2, h3⟩
      exact ⟨d, hd, h1, h2, ((capCondB_iff b r c piece d hp).mp h3).2⟩
    · rintro ⟨d, hd, h1, h2, h3⟩
      refine ⟨d, hd, h1, h2, (capCondB_iff b r c piece d hp).mpr ⟨?_, h3⟩⟩
      unfold isOnBoard
      simp only [Bool.and_eq_true, decide_eq_true_eq]
      have hr := r1.isLt
      have hc := c1.isLt
      refine ⟨⟨⟨?_, ?_⟩, ?_⟩, ?_⟩ <;> omega
  by_cases hcond : ∃ d ∈ directionTable, ((r1 : ℕ) : Int) = r + d.1 ∧
      ((c1 : ℕ) : Int) = c + d.2 ∧ captureSpecCond b r c piece d
  · rw [if_pos (hiff.mpr hcond), if_pos hcond]
  · rw [if_neg (fun hc => hcond (hiff.mp hc)), if_neg hcond, bget_coe]

/-- Witness for `applyCaptures_spec`: an attacker lands on (3,3); the
defender on (3,4) is sandwiched against the attacker on (3,5), and the
characterization applies (and indeed reports that capture). -/
theorem applyCaptures_spec_witness :
    Cell.attacker ≠ Cell.empty ∧
    applyCaptures captureSceneBoard 3 3 Cell.attacker (3 : Fin 7) (4 : Fin 7) =
      (if ∃ d ∈ directionTable,
            (((3 : Fin 7) : ℕ) : Int) = 3 + d.1 ∧ (((4 : Fin 7) : ℕ) : Int) = 3 + d.2 ∧
            captureSpecCond captureSceneBoard 3 3 Cell.attacker d
       then Cell.empty else captureSceneBoard (3 : Fin 7) (4 : Fin 7)) :=
  ⟨by decide, applyCaptures_spec captureSceneBoard 3 3 Cell.attacker (by decide)
    (3 : Fin 7) (4 : Fin 7)⟩

/-! ## Theorems for C9 -/

/-- C9: `expand` on an already-expanded node returns it unchanged — children,
priors, visit count, value sums, and flags included — for every argument
list of legal moves and every policy vector. -/
theorem expand_idempotent (n : MCTSNode) (legalMoves : List MoveRec)
    (policyProbs : Int → ℚ) (h : n.isExpanded = true) :
    n.expand legalMoves policyProbs = n := by
  cases n with
  | mk gs pl pa pr ch vc tv mv ie it tval =>
    simp only [MCTSNode.isExpanded] at h
    simp only [MCTSNode.expand, h, if_true]

/-- Witness for `expand_idempotent` on a concrete expanded node. -/
theorem expand_idempotent_witness :
    exNodeOneChild.expand [exMoveB] (fun _ => 1) = exNodeOneChild :=
  expand_idempotent exNodeOneChild [exMoveB] (fun _ => 1) rfl

/-! ## Theorems for C7 -/

/-- The distribution always has exactly one entry per child (at any
temperature and for any power map). -/
theorem getVisitDistribution_length (n : MCTSNode) (temperature : ℚ) (tpow : ℕ → ℚ) :
    (n.getVisitDistribution temperature tpow).length = n.children.length := by
  unfold MCTSNode.getVisitDistribution
  split_ifs with h h2
  · simp [h]
  · simp [List.length_zip]
  · simp [List.length_zip]

/-- C7 counterexample: on a node with one child at zero visits, at
temperature 1 (whose power map is exactly the identity), the visit
distribution is not empty — it has one entry — refuting "the distribution is
empty whenever all children have zero visits". -/
theorem getVisitDistribution_allZero_cex :
    (∀ kv ∈ exNodeOneChild.children, kv.2.visitCount = 0) ∧ ((0 : ℚ) < 1) ∧
    exNodeOneChild.getVisitDistribution 1 (fun v => (v : ℚ)) ≠ [] := by
  refine ⟨by decide, by norm_num, ?_⟩
  decide

/-- C7 (amended): the visit distribution is empty exactly when the node has
no children; a node with children — even all at zero visits — yields one
entry per child.  (Holds at every temperature and power map.) -/
theorem getVisitDistribution_empty_iff (n : MCTSNode) (temperature : ℚ)
    (tpow : ℕ → ℚ) :
    (n.getVisitDistribution temperature tpow = [] ↔ n.children = []) ∧
    (n.getVisitDistribution temperature tpow).length = n.children.length := by
  refine ⟨?_, getVisitDistribution_length n temperature tpow⟩
  rw [← List.length_eq_zero, ← List.length_eq_zero,
    getVisitDistribution_length n temperature tpow]

/-! ## Theorems for C6 -/

/-- Folding `Map.set` with keys fresh for the accumulator and pairwise
distinct appends every binding in order. -/
theorem foldl_mapSet_fresh (f : MoveRec × ℚ → MCTSNode) :
    ∀ (ms : List (MoveRec × ℚ)) (acc : List (MoveKey × MCTSNode)),
      (ms.map fun mp => keyOfMove mp.1).Nodup →
      (∀ mp ∈ ms, ∀ kv ∈ acc, kv.1 ≠ keyOfMove mp.1) →
      ms.foldl (fun chAcc mp => mapSet chAcc (keyOfMove mp.1) (f mp)) acc =
        acc ++ ms.map fun mp => (keyOfMove mp.1, f mp) := by
  intro ms
  induction ms with
  | nil => intro acc _ _; simp
  | cons m ms ih =>
    intro acc hnd hfresh
    rw [List.map_cons] at hnd
    have hnd' := List.nodup_cons.mp hnd
    rw [List.foldl_cons]
    have hset : mapSet acc (keyOfMove m.1) (f m) = acc ++ [(keyOfMove m.1, f m)] := by
      unfold mapSet
      rw [if_neg]
      simp only [List.any_eq_true, decide_eq_true_eq, not_exists, not_and]
      intro kv hkv
      exact hfresh m (List.mem_cons_self m ms) kv hkv
    rw [hset, ih (acc ++ [(keyOfMove m.1, f m)]) hnd'.2]
    · simp
    · intro mp hmp kv hkv
      rcases List.mem_append.mp hkv with hkv2 | hkv2
      · exact hfresh mp (List.mem_cons_of_mem m hmp) kv hkv2
      · have hk : kv = (keyOfMove m.1, f m) := by simpa using hkv2
        subst hk
        intro hEq
        have hEq2 : keyOfMove m.1 = keyOfMove mp.1 := hEq
        apply hnd'.1
        rw [hEq2]
        exact List.mem_map.mpr ⟨mp, hmp, rfl⟩

/-- Sum of elementwise division. -/
theorem sum_map_div (l : List ℚ) (S : ℚ) : (l.map fun p => p / S).sum = l.sum / S := by
  induction l with
  | nil => simp
  | cons a t ih =>
    simp only [List.map_cons, List.sum_cons, ih]
    ring

/-- Sum of a constant map. -/
theorem sum_map_const {α : Type} (l : List α) (q : ℚ) :
    (l.map fun _ => q).sum = (l.length : ℚ) * q := by
  induction l with
  | nil => simp
  | cons a t ih =>
    simp only [List.map_cons, List.sum_cons, ih, List.length_cons]
    push_cast
    ring

/-- C6: expanding an unexpanded childless node over a non-empty list of
(pairwise distinct) legal moves and a non-negative masked policy vector
creates exactly one child per legal move, in order; each child's prior is the
move's masked probability divided by the total (uniform `1/length` when the
total is 0); and the priors sum to exactly 1. -/
theorem expand_spec (n : MCTSNode) (legalMoves : List MoveRec)
    (policyProbs : Int → ℚ)
    (hne : n.isExpanded = false) (hch : n.children = [])
    (hmoves : legalMoves ≠ []) (hkeys : (legalMoves.map keyOfMove).Nodup)
    (hpp : ∀ i, 0 ≤ policyProbs i) :
    ((n.expand legalMoves policyProbs).children.map Prod.fst =
        legalMoves.map keyOfMove) ∧
    (((n.expand legalMoves policyProbs).children.map fun kv => kv.2.prior) =
        (if (legalMoves.map fun m => policyProbs m.policyIndex).sum > 0 then
          legalMoves.map fun m =>
            policyProbs m.policyIndex /
              (legalMoves.map fun m2 => policyProbs m2.policyIndex).sum
         else legalMoves.map fun _ => 1 / (legalMoves.length : ℚ))) ∧
    (((n.expand legalMoves policyProbs).children.map fun kv => kv.2.prior).sum = 1) := by
  cases n with
  | mk gs pl pa pr ch vc tv mv ie it tval =>
    simp only [MCTSNode.isExpanded] at hne
    simp only [MCTSNode.children] at hch
    subst hne
    subst hch
    simp only [MCTSNode.expand, Bool.false_eq_true, if_false, MCTSNode.children]
    set probs0 := legalMoves.map fun m => policyProbs m.policyIndex with hprobs0
    set probs : List ℚ :=
      if probs0.sum > 0 then probs0.map fun p => p / probs0.sum
      else probs0.map fun _ => 1 / (legalMoves.length : ℚ) with hprobs
    have hplen : probs.length = legalMoves.length := by
      rw [hprobs]
      split_ifs <;> simp [hprobs0]
    have hzip : (legalMoves.zip probs).map (fun mp => keyOfMove mp.1) =
        legalMoves.map keyOfMove := by
      have h1 : ((legalMoves.zip probs).map Prod.fst).map keyOfMove =
          legalMoves.map keyOfMove := by
        rw [List.map_fst_zip legalMoves probs (by omega)]
      rw [← h1, List.map_map]
      rfl
    have hfold := foldl_mapSet_fresh
      (fun mp => MCTSNode.mk none
        (if pl = Player.attacker then Player.defender else Player.attacker)
        (some mp.1) mp.2 [] 0 0 0 false false none)
      (legalMoves.zip probs) []
      (by rw [hzip]; exact hkeys)
      (by intro mp _ kv hkv; simp at hkv)
    rw [hfold]
    simp only [List.nil_append]
    refine ⟨?_, ?_, ?_⟩
    · rw [List.map_map]
      exact hzip
    · rw [List.map_map]
      have : ((fun kv => MCTSNode.prior kv.2) ∘
          fun mp : MoveRec × ℚ => (keyOfMove mp.1,
            MCTSNode.mk none
              (if pl = Player.attacker then Player.defender else Player.attacker)
              (some mp.1) mp.2 [] 0 0 0 false false none)) =
          fun mp : MoveRec × ℚ => mp.2 := rfl
      rw [this, List.map_snd_zip legalMoves probs (by omega)]
      rw [hprobs]
      split_ifs with hpos
      · rw [hprobs0, List.map_map]
        rfl
      · rw [hprobs0, List.map_map]
        rfl
    · rw [List.map_map]
      have : ((fun kv => MCTSNode.prior kv.2) ∘
          fun mp : MoveRec × ℚ => (keyOfMove mp.1,
            MCTSNode.mk none
              (if pl = Player.attacker then Player.defender else Player.attacker)
              (some mp.1) mp.2 [] 0 0 0 false false none)) =
          fun mp : MoveRec × ℚ => mp.2 := rfl
      rw [this, List.map_snd_zip legalMoves probs (by omega)]
      rw [hprobs]
      split_ifs with hpos
      · rw [sum_map_div]
        exact div_self (ne_of_gt hpos)
      · rw [sum_map_const, hprobs0, List.length_map]
        have hlen : legalMoves.length ≠ 0 := by
          simpa [List.length_eq_zero] using hmoves
        have hlenQ : (legalMoves.length : ℚ) ≠ 0 := by exact_mod_cast hlen
        rw [mul_one_div, div_self hlenQ]

/-- Witness for `expand_spec`: expanding a fresh node over two moves with a
constant policy yields two children whose priors (1/2 each) sum to 1. -/
theorem expand_spec_witness :
    ((exFreshNode.expand [exMoveA, exMoveB] fun _ => 1).children.map Prod.fst =
        [exMoveA, exMoveB].map keyOfMove) ∧
    (((exFreshNode.expand [exMoveA, exMoveB] fun _ => 1).children.map
        fun kv => kv.2.prior) =
      (if ([exMoveA, exMoveB].map fun _ : MoveRec => (1 : ℚ)).sum > 0 then
        [exMoveA, exMoveB].map fun _ : MoveRec =>
          (1 : ℚ) / ([exMoveA, exMoveB].map fun _ : MoveRec => (1 : ℚ)).sum
       else [exMoveA, exMoveB].map fun _ : MoveRec =>
          1 / (([exMoveA, exMoveB] : List MoveRec).length : ℚ))) ∧
    ((exFreshNode.expand [exMoveA, exMoveB] fun _ => 1).children.map
        fun kv => kv.2.prior).sum = 1 :=
  expand_spec exFreshNode [exMoveA, exMoveB] (fun _ => 1) rfl rfl (by decide) (by decide)
    fun _ => by norm_num

/-! ## Theorems for C5 -/

/-- The selection loop started on a current best computes `firstArgmaxAux`. -/
theorem selLoop_eq (g : MoveKey × MCTSNode → ℚ) :
    ∀ (l : List (MoveKey × MCTSNode)) (cur : MoveKey × MCTSNode),
      selLoop g (some (g cur, cur)) l =
        some (g (firstArgmaxAux g cur l), firstArgmaxAux g cur l) := by
  intro l
  induction l with
  | nil => intro cur; rfl
  | cons a rest ih =>
    intro cur
    simp only [selLoop, firstArgmaxAux]
    dsimp only
    by_cases h : g a > g cur
    · rw [if_pos h, if_pos h]
      exact ih a
    · rw [if_neg h, if_neg h]
      exact ih cur

/-- `firstArgmaxAux` keeps the current best exactly when nothing in the list
strictly beats it; otherwise it returns the first strict-improver chain's
final element: a maximal element strictly above everything before it. -/
theorem firstArgmaxAux_spec {α : Type} (g : α → ℚ) :
    ∀ (l : List α) (cur : α),
      (firstArgmaxAux g cur l = cur ∧ ∀ a ∈ l, g a ≤ g cur) ∨
      (∃ i : Fin l.length, firstArgmaxAux g cur l = l.get i ∧ g cur < g (l.get i) ∧
        (∀ j : Fin l.length, g (l.get j) ≤ g (l.get i)) ∧
        ∀ j : Fin l.length, (j : ℕ) < (i : ℕ) → g (l.get j) < g (l.get i)) := by
  intro l
  induction l with
  | nil => intro cur; left; exact ⟨rfl, by simp⟩
  | cons a rest ih =>
    intro cur
    simp only [firstArgmaxAux]
    by_cases h : g a > g cur
    · rw [if_pos h]
      rcases ih a with ⟨heq, hall⟩ | ⟨i, heq, hgt, hall, hfirst⟩
      · right
        refine ⟨⟨0, by simp⟩, heq, h, ?_, ?_⟩
        · intro j
          rcases j with ⟨jv, hj⟩
          cases jv with
          | zero => exact le_of_eq rfl
          | succ k =>
            have hk : k < rest.length := by simpa using hj
            exact hall (rest.get ⟨k, hk⟩) (List.get_mem rest k hk)
        · intro j hj0
          exact absurd hj0 (by simp)
      · right
        refine ⟨⟨(i : ℕ) + 1, by have := i.isLt; simp only [List.length_cons]; omega⟩, heq,
          lt_trans h hgt, ?_, ?_⟩
        · intro j
          rcases j with ⟨jv, hj⟩
          cases jv with
          | zero => exact le_of_lt hgt
          | succ k => exact hall ⟨k, by simpa using hj⟩
        · intro j hlt
          rcases j with ⟨jv, hj⟩
          cases jv with
          | zero => exact hgt
          | succ k =>
            exact hfirst ⟨k, by simpa using hj⟩ (by simpa using hlt)
    · rw [if_neg h]
      rcases ih cur with ⟨heq, hall⟩ | ⟨i, heq, hgt, hall, hfirst⟩
      · left
        refine ⟨heq, ?_⟩
        intro x hx
        rcases List.mem_cons.mp hx with rfl | hx
        · exact le_of_not_lt h
        · exact hall x hx
      · right
        refine ⟨⟨(i : ℕ) + 1, by have := i.isLt; simp only [List.length_cons]; omega⟩, heq, hgt, ?_, ?_⟩
        · intro j
          rcases j with ⟨jv, hj⟩
          cases jv with
          | zero => exact le_trans (le_of_not_lt h) (le_of_lt hgt)
          | succ k => exact hall ⟨k, by simpa using hj⟩
        · intro j hlt
          rcases j with ⟨jv, hj⟩
          cases jv with
          | zero => exact lt_of_le_of_lt (le_of_not_lt h) hgt
          | succ k =>
            exact hfirst ⟨k, by simpa using hj⟩ (by simpa using hlt)

/-- C5: on a node with children, `selectChild` returns the first child (in
children-map enumeration order) maximizing the PUCT score
`Q̂(c) + cPuct · P(c) · √N(parent) / (1 + N(c))` (relative-FPU `Q̂` for
unvisited children); in particular ties go to the earlier-enumerated child
(everything strictly before the winner scores strictly less). -/
theorem selectChild_first_argmax (n : MCTSNode) (cPuct fpuReduction sqrtParentVisits : ℚ)
    (h : n.children ≠ []) :
    ∃ i : Fin n.children.length,
      n.selectChild cPuct fpuReduction sqrtParentVisits = some (n.children.get i) ∧
      (∀ j : Fin n.children.length,
        childScore cPuct fpuReduction n.meanValue sqrtParentVisits
            (n.children.get j).2 ≤
          childScore cPuct fpuReduction n.meanValue sqrtParentVisits
            (n.children.get i).2) ∧
      ∀ j : Fin n.children.length, (j : ℕ) < (i : ℕ) →
        childScore cPuct fpuReduction n.meanValue sqrtParentVisits
            (n.children.get j).2 <
          childScore cPuct fpuReduction n.meanValue sqrtParentVisits
            (n.children.get i).2 := by
  obtain ⟨c, cs, hcs⟩ := List.exists_cons_of_ne_nil h
  have hsel : n.selectChild cPuct fpuReduction sqrtParentVisits =
      some (firstArgmaxAux
        (fun kv : MoveKey × MCTSNode =>
          childScore cPuct fpuReduction n.meanValue sqrtParentVisits kv.2) c cs) := by
    unfold MCTSNode.selectChild
    rw [hcs]
    rw [show selLoop
        (fun kv : MoveKey × MCTSNode =>
          childScore cPuct fpuReduction n.meanValue sqrtParentVisits kv.2)
        none (c :: cs) =
      selLoop
        (fun kv : MoveKey × MCTSNode =>
          childScore cPuct fpuReduction n.meanValue sqrtParentVisits kv.2)
        (some (childScore cPuct fpuReduction n.meanValue sqrtParentVisits c.2, c)) cs
      from rfl]
    rw [selLoop_eq]
    rfl
  rw [hcs]
  rcases firstArgmaxAux_spec
      (fun kv : MoveKey × MCTSNode =>
        childScore cPuct fpuReduction n.meanValue sqrtParentVisits kv.2) cs c with
    ⟨heq, hall⟩ | ⟨i, heq, hgt, hall, hfirst⟩
  · refine ⟨⟨0, by simp⟩, ?_, ?_, ?_⟩
    · rw [hsel, heq]
      rfl
    · intro j
      rcases j with ⟨jv, hj⟩
      cases jv with
      | zero => exact le_of_eq rfl
      | succ k =>
        have hk : k < cs.length := by simpa using hj
        exact hall (cs.get ⟨k, hk⟩) (List.get_mem cs k hk)
    · intro j hj0
      exact absurd hj0 (by simp)
  · refine ⟨⟨(i : ℕ) + 1, by have := i.isLt; simp only [List.length_cons]; omega⟩, ?_, ?_, ?_⟩
    · rw [hsel, heq]
      rfl
    · intro j
      rcases j with ⟨jv, hj⟩
      cases jv with
      | zero => exact le_of_lt hgt
      | succ k => exact hall ⟨k, by simpa using hj⟩
    · intro j hlt
      rcases j with ⟨jv, hj⟩
      cases jv with
      | zero => exact hgt
      | succ k =>
        exact hfirst ⟨k, by simpa using hj⟩ (by simpa using hlt)

/-- Witness for `selectChild_first_argmax`: a node with two equal-scoring
unvisited children (the selection therefore keeps the earlier one). -/
theorem selectChild_first_argmax_witness :
    ∃ i : Fin exNodeTwoChildren.children.length,
      exNodeTwoChildren.selectChild 1 (1/2) 1 =
        some (exNodeTwoChildren.children.get i) ∧
      (∀ j : Fin exNodeTwoChildren.children.length,
        childScore 1 (1/2) exNodeTwoChildren.meanValue 1
            (exNodeTwoChildren.children.get j).2 ≤
          childScore 1 (1/2) exNodeTwoChildren.meanValue 1
            (exNodeTwoChildren.children.get i).2) ∧
      ∀ j : Fin exNodeTwoChildren.children.length, (j : ℕ) < (i : ℕ) →
        childScore 1 (1/2) exNodeTwoChildren.meanValue 1
            (exNodeTwoChildren.children.get j).2 <
          childScore 1 (1/2) exNodeTwoChildren.meanValue 1
            (exNodeTwoChildren.children.get i).2 :=
  selectChild_first_argmax exNodeTwoChildren 1 (1/2) 1
    (by simp [exNodeTwoChildren, MCTSNode.children])

/-! ## Theorems for C8 -/

/-- The plane-major index map is injective. -/
theorem planeIdx_inj (q q' : Fin 4) (r r' c c' : Fin 7)
    (h : planeIdx q r c = planeIdx q' r' c') : q = q' ∧ r = r' ∧ c = c' := by
  have hv := congrArg Fin.val h
  simp only [planeIdx] at hv
  have h1 := q.isLt
  have h2 := q'.isLt
  have h3 := r.isLt
  have h4 := r'.isLt
  have h5 := c.isLt
  have h6 := c'.isLt
  refine ⟨Fin.ext ?_, Fin.ext ?_, Fin.ext ?_⟩ <;> omega

/-- Writes for another cell never touch this cell's tensor entries. -/
theorem stateCellWrite_other (b : Board) (pv : ℚ) (st : Fin 196 → ℚ)
    (x : Fin 7 × Fin 7) (q : Fin 4) (r c : Fin 7) (hne : ¬ (x.1 = r ∧ x.2 = c)) :
    stateCellWrite b pv st x (planeIdx q r c) = st (planeIdx q r c) := by
  have hidx : ∀ q' : Fin 4, planeIdx q r c ≠ planeIdx q' x.1 x.2 := by
    intro q' hEq
    obtain ⟨-, hr, hc⟩ := planeIdx_inj q q' r x.1 c x.2 hEq
    exact hne ⟨hr.symm, hc.symm⟩
  unfold stateCellWrite
  rw [Function.update_noteq (hidx 3)]
  cases b x.1 x.2
  · rfl
  · exact Function.update_noteq (hidx 0) _ _
  · exact Function.update_noteq (hidx 1) _ _
  · exact Function.update_noteq (hidx 2) _ _

/-- The write for a cell reads the incoming state only at the entry it is
asked about. -/
theorem stateCellWrite_val (b : Board) (pv : ℚ) (st st2 : Fin 196 → ℚ) (r c : Fin 7)
    (q : Fin 4) (h : st (planeIdx q r c) = st2 (planeIdx q r c)) :
    stateCellWrite b pv st (r, c) (planeIdx q r c) =
      stateCellWrite b pv st2 (r, c) (planeIdx q r c) := by
  have hne : ∀ q' q'' : Fin 4, q' ≠ q'' → planeIdx q' r c ≠ planeIdx q'' r c :=
    fun q' q'' hqq hEq => hqq (planeIdx_inj q' q'' r r c c hEq).1
  unfold stateCellWrite
  dsimp only
  by_cases hq3 : q = 3
  · subst hq3
    rw [Function.update_same, Function.update_same]
  · rw [Function.update_noteq (hne q 3 hq3), Function.update_noteq (hne q 3 hq3)]
    cases b r c <;> try dsimp only
    · exact h
    · by_cases hq0 : q = 0
      · subst hq0
        rw [Function.update_same, Function.update_same]
      · rw [Function.update_noteq (hne q 0 hq0), Function.update_noteq (hne q 0 hq0)]
        exact h
    · by_cases hq1 : q = 1
      · subst hq1
        rw [Function.update_same, Function.update_same]
      · rw [Function.update_noteq (hne q 1 hq1), Function.update_noteq (hne q 1 hq1)]
        exact h
    · by_cases hq2 : q = 2
      · subst hq2
        rw [Function.update_same, Function.update_same]
      · rw [Function.update_noteq (hne q 2 hq2), Function.update_noteq (hne q 2 hq2)]
        exact h

/-- A pair whose components are known. -/
theorem pair_eq_of_parts {x : Fin 7 × Fin 7} {r c : Fin 7} (h1 : x.1 = r) (h2 : x.2 = c) :
    x = (r, c) := by
  rcases x with ⟨a, a2⟩
  simp only at h1 h2
  rw [h1, h2]

/-- Frame: folding over cells not containing `(r,c)` leaves that cell's
entries untouched. -/
theorem state_fold_notmem (b : Board) (pv : ℚ) :
    ∀ (l : List (Fin 7 × Fin 7)) (st0 : Fin 196 → ℚ) (r c : Fin 7) (q : Fin 4),
      (r, c) ∉ l →
      l.foldl (stateCellWrite b pv) st0 (planeIdx q r c) = st0 (planeIdx q r c) := by
  intro l
  induction l with
  | nil => intro st0 r c q _; rfl
  | cons x xs ih =>
    intro st0 r c q hmem
    rw [List.foldl_cons, ih _ r c q (fun hc => hmem (List.mem_cons_of_mem x hc))]
    apply stateCellWrite_other
    intro hc
    have hx : x = (r, c) := pair_eq_of_parts hc.1 hc.2
    rw [hx] at hmem
    exact hmem (List.mem_cons_self _ _)

/-- Folding over a duplicate-free cell list containing `(r,c)` acts on that
cell's entries exactly as the single write for `(r,c)` does. -/
theorem state_fold_mem (b : Board) (pv : ℚ) :
    ∀ (l : List (Fin 7 × Fin 7)) (st0 : Fin 196 → ℚ) (r c : Fin 7) (q : Fin 4),
      l.Nodup → (r, c) ∈ l →
      l.foldl (stateCellWrite b pv) st0 (planeIdx q r c) =
        stateCellWrite b pv st0 (r, c) (planeIdx q r c) := by
  intro l
  induction l with
  | nil => intro st0 r c q _ hmem; simp at hmem
  | cons x xs ih =>
    intro st0 r c q hnd hmem
    rw [List.foldl_cons]
    rcases List.mem_cons.mp hmem with heq | hmem2
    · have hx : x = (r, c) := heq.symm
      subst hx
      exact state_fold_notmem b pv xs _ r c q (List.nodup_cons.mp hnd).1
    · have hxne : ¬ (x.1 = r ∧ x.2 = c) := by
        intro hc
        have hx : x = (r, c) := pair_eq_of_parts hc.1 hc.2
        subst hx
        exact (List.nodup_cons.mp hnd).1 hmem2
      rw [ih (stateCellWrite b pv st0 x) r c q (List.nodup_cons.mp hnd).2 hmem2]
      exact stateCellWrite_val b pv _ _ r c q (stateCellWrite_other b pv st0 x q r c hxne)

/-- One cell's write over the zero state, at that cell's four entries. -/
theorem stateCellWrite_zero (b : Board) (pv : ℚ) (r c : Fin 7) :
    (stateCellWrite b pv (fun _ => 0) (r, c) (planeIdx 0 r c) =
      if b r c = Cell.attacker then 1 else 0) ∧
    (stateCellWrite b pv (fun _ => 0) (r, c) (planeIdx 1 r c) =
      if b r c = Cell.defender then 1 else 0) ∧
    (stateCellWrite b pv (fun _ => 0) (r, c) (planeIdx 2 r c) =
      if b r c = Cell.king then 1 else 0) ∧
    stateCellWrite b pv (fun _ => 0) (r, c) (planeIdx 3 r c) = pv := by
  have hne : ∀ q' q'' : Fin 4, q' ≠ q'' → planeIdx q' r c ≠ planeIdx q'' r c :=
    fun q' q'' hqq hEq => hqq (planeIdx_inj q' q'' r r c c hEq).1
  unfold stateCellWrite
  dsimp only
  refine ⟨?_, ?_, ?_, ?_⟩
  · rw [Function.update_noteq (hne 0 3 (by decide))]
    cases b r c <;> try dsimp only
    · rw [if_neg (by decide)]
    · rw [Function.update_same, if_pos rfl]
    · rw [Function.update_noteq (hne 0 1 (by decide)), if_neg (by decide)]
    · rw [Function.update_noteq (hne 0 2 (by decide)), if_neg (by decide)]
  · rw [Function.update_noteq (hne 1 3 (by decide))]
    cases b r c <;> try dsimp only
    · rw [if_neg (by decide)]
    · rw [Function.update_noteq (hne 1 0 (by decide)), if_neg (by decide)]
    · rw [Function.update_same, if_pos rfl]
    · rw [Function.update_noteq (hne 1 2 (by decide)), if_neg (by decide)]
  · rw [Function.update_noteq (hne 2 3 (by decide))]
    cases b r c <;> try dsimp only
    · rw [if_neg (by decide)]
    · rw [Function.update_noteq (hne 2 0 (by decide)), if_neg (by decide)]
    · rw [Function.update_noteq (hne 2 1 (by decide)), if_neg (by decide)]
    · rw [Function.update_same, if_pos rfl]
  · rw [Function.update_same]

/-- C8: the state tensor is the 196-float plane-major layout
`[Attackers, Defenders, King, SideToMove]`: plane entry `r*7+c` is 1.0 iff
the matching piece stands at `(r,c)` (0.0 otherwise), and the fourth plane is
uniformly 0.0 for attacker-to-move and 1.0 for defender-to-move.  (The fixed
length 196 is the index type `Fin 196` of the returned array.) -/
theorem getStateRepresentation_spec (b : Board) (player : Player) (r c : Fin 7) :
    (getStateRepresentation b player (planeIdx 0 r c) =
      if b r c = Cell.attacker then 1 else 0) ∧
    (getStateRepresentation b player (planeIdx 1 r c) =
      if b r c = Cell.defender then 1 else 0) ∧
    (getStateRepresentation b player (planeIdx 2 r c) =
      if b r c = Cell.king then 1 else 0) ∧
    getStateRepresentation b player (planeIdx 3 r c) =
      (if player = Player.attacker then 0 else 1) := by
  have hnd : allCellsF.Nodup := by decide
  have hmem : (r, c) ∈ allCellsF := by
    unfold allCellsF
    rw [List.mem_flatMap]
    exact ⟨r, List.mem_finRange r, List.mem_map.mpr ⟨c, List.mem_finRange c, rfl⟩⟩
  simp only [getStateRepresentation]
  rw [state_fold_mem b _ allCellsF _ r c 0 hnd hmem,
    state_fold_mem b _ allCellsF _ r c 1 hnd hmem,
    state_fold_mem b _ allCellsF _ r c 2 hnd hmem,
    state_fold_mem b _ allCellsF _ r c 3 hnd hmem]
  exact stateCellWrite_zero b _ r c

/-! ## Theorems for C10 -/

/-- The first cumulative step reads the head probability (0 when absent). -/
theorem take_one_sum (probs : List ℚ) : (probs.take 1).sum = probs.headD 0 := by
  cases probs <;> simp

/-- Splitting a cumulative sum at the head. -/
theorem take_succ_sum (probs : List ℚ) (i : ℕ) :
    (probs.take (i + 2)).sum = probs.headD 0 + (probs.tail.take (i + 1)).sum := by
  cases probs <;> simp

/-- Whatever the scan loop returns is one of the items. -/
theorem sampleLoop_mem {α : Type} (rand : ℚ) :
    ∀ (items : List α) (probs : List ℚ) (cumSum : ℚ) (a : α),
      sampleLoop rand items probs cumSum = some a → a ∈ items := by
  intro items
  induction items with
  | nil => intro probs cum a h; simp [sampleLoop] at h
  | cons x xs ih =>
    intro probs cum a h
    simp only [sampleLoop] at h
    split_ifs at h with hlt
    · exact List.mem_cons.mpr (Or.inl (Option.some.inj h).symm)
    · exact List.mem_cons.mpr (Or.inr (ih _ _ _ h))

/-- When no cumulative sum ever exceeds the draw, the scan loop falls
through. -/
theorem sampleLoop_none {α : Type} (rand : ℚ) :
    ∀ (items : List α) (probs : List ℚ) (cumSum : ℚ),
      (∀ i : ℕ, i < items.length → cumSum + (probs.take (i + 1)).sum ≤ rand) →
      sampleLoop rand items probs cumSum = none := by
  intro items
  induction items with
  | nil => intro probs cum _; rfl
  | cons x xs ih =>
    intro probs cum h
    simp only [sampleLoop]
    rw [if_neg ?_]
    · apply ih
      intro i hi
      have h2 := h (i + 1) (by simpa using hi)
      rw [take_succ_sum] at h2
      linarith
    · have h0 := h 0 (by simp)
      rw [take_one_sum] at h0
      exact not_lt.mpr h0

/-- C10: on a non-empty item list, sampling always returns one of the items
(never indexing out of bounds), for every probability list — normalized or
not, even shorter than the items — and every draw in [0,1); and when no
cumulative sum exceeds the draw it falls back to the last item. -/
theorem sampleFromDistribution_total {α : Type} (items : List α) (probs : List ℚ)
    (rand : ℚ) (hne : items ≠ []) (h0 : 0 ≤ rand) (h1 : rand < 1) :
    (∃ a ∈ items, sampleFromDistribution items probs rand = some a) ∧
    ((∀ i : ℕ, i < items.length → (probs.take (i + 1)).sum ≤ rand) →
      sampleFromDistribution items probs rand = items.getLast?) := by
  constructor
  · unfold sampleFromDistribution
    cases hs : sampleLoop rand items probs 0 with
    | some a => exact ⟨a, sampleLoop_mem rand items probs 0 a hs, rfl⟩
    | none =>
      obtain ⟨a, ha⟩ := Option.isSome_iff_exists.mp (List.getLast?_isSome.mpr hne)
      exact ⟨a, List.mem_of_mem_getLast? ha, ha⟩
  · intro hcum
    unfold sampleFromDistribution
    rw [sampleLoop_none rand items probs 0 (by
      intro i hi
      simpa using hcum i hi)]

/-- Witness for `sampleFromDistribution_total` on a concrete two-item
distribution and draw 1/4. -/
theorem sampleFromDistribution_total_witness :
    (∃ a ∈ ([0, 1] : List ℕ),
      sampleFromDistribution [0, 1] [(1 : ℚ)/2, 1/2] (1/4) = some a) ∧
    ((∀ i : ℕ, i < ([0, 1] : List ℕ).length →
        (([(1 : ℚ)/2, 1/2]).take (i + 1)).sum ≤ 1/4) →
      sampleFromDistribution [0, 1] [(1 : ℚ)/2, 1/2] (1/4) =
        ([0, 1] : List ℕ).getLast?) :=
  sampleFromDistribution_total [0, 1] [(1 : ℚ)/2, 1/2] (1/4) (by decide)
    (by norm_num) (by norm_num)
